import Mathlib

/-!
Verification development for the SubCircuit MNA transient simulator.

The definitions below are a shallow embedding of the simulator core:

* `stamp`, `setup`, `step`, `minor_step`, `newton_loop` embed `Netlist.stamp`,
  `Netlist.setup`, `Netlist.step` and `Netlist.minor_step` from `netlist.py`;
* `trans_loop` embeds the timestep loop of `Simulator.trans` from
  `src/simulator.py`;
* `R_update`, `C_start`, `L_start` embed the local-Jacobian stamps of the
  resistor, capacitor and inductor devices (`subcircuit/devices/{r,c,l}.py`);
* `flatten`, `X_connect` embed `Netlist.flatten` and `X.connect`;
* `Subckt_device` embeds `Subckt.device` (`subcircuit/interfaces.py`);
* `Table_interp` and `Pwl_interp` embed `Table._interp_`
  (`subcircuit/interfaces.py`) and `Pwl._interp_` (`subcircuit/stimuli.py`).

Numbers are modelled as rationals.  The numpy linear solve `la.solve` is
external to the repository and is modelled as a parameter returning
`Option` (`none` models a raised `LinAlgError`); the per-device
`minor_step`/`update` hooks, which write only device-private arrays, are
modelled as a parameter producing the device list with its refreshed local
stamps.
-/

namespace SubCircuit

/-- One device as seen by `Netlist.stamp`: `nodes` is the items view of the
`device.nodes` dict (local port index, global node index), `jac` and
`bequiv` are the device-local stamp arrays. -/
structure Device where
  nodes : List (Nat × Nat)
  jac : Nat → Nat → ℚ
  bequiv : Nat → ℚ

/-- The global state held by a `Netlist`: node count, the three solution
vectors, the global Jacobian and b-equivalent arrays, and the convergence
flag. -/
structure NetState where
  nodenum : Nat
  across : Nat → ℚ
  across_last : Nat → ℚ
  across_history : Nat → ℚ
  jac : Nat → Nat → ℚ
  bequiv : Nat → ℚ
  converged : Bool

/-- Simulation parameters: the Newton cap and tolerance (held by the
`Simulator`), the device-hook function (devices with their local stamps
after `minor_step(k, t, dt)` has run on each), and the reduced linear
solver standing for `numpy.linalg.solve` (`none` models `LinAlgError`). -/
structure SimParams where
  maxitr : Nat
  tol : ℚ
  devfn : Nat → ℚ → ℚ → NetState → List Device
  solve : (Nat → Nat → ℚ) → (Nat → ℚ) → Nat → Option (Nat → ℚ)

/-- In-place accumulation `b[i] += x` on a vector. -/
def updVec (v : Nat → ℚ) (i : Nat) (x : ℚ) : Nat → ℚ :=
  fun a => if a = i then v a + x else v a

/-- In-place accumulation `m[i, j] += x` on a matrix. -/
def updMat (m : Nat → Nat → ℚ) (i j : Nat) (x : ℚ) : Nat → Nat → ℚ :=
  fun a b => if a = i ∧ b = j then m a b + x else m a b

/-- The inner loops of `Netlist.stamp` for one device:
`for pi, ni in device.nodes.items(): bequiv[ni] += device.bequiv[pi];`
`for pj, nj in device.nodes.items(): jac[ni, nj] += device.jac[pi, pj]`. -/
def stampDevice (d : Device) (jb : (Nat → Nat → ℚ) × (Nat → ℚ)) :
    (Nat → Nat → ℚ) × (Nat → ℚ) :=
  d.nodes.foldl
    (fun jb pn =>
      (d.nodes.foldl (fun j qn => updMat j pn.2 qn.2 (d.jac pn.1 qn.1)) jb.1,
       updVec jb.2 pn.2 (d.bequiv pn.1)))
    jb

/-- `Netlist.stamp`: zero the global Jacobian and b-equivalent (discarding
the previous contents `prevJac`, `prevB`), then scatter-add every device's
local stamp. -/
def stamp (devices : List Device) (_prevJac : Nat → Nat → ℚ) (_prevB : Nat → ℚ) :
    (Nat → Nat → ℚ) × (Nat → ℚ) :=
  devices.foldl (fun jb d => stampDevice d jb) (fun _ _ => 0, fun _ => 0)

/-- `Netlist.setup(dt)`: dimension all global arrays to `nodenum` zeros, run
the device setup hooks (which touch only device-local arrays, here the
resulting list `devs`), then stamp the circuit. -/
def setup (devs : List Device) (nodenum : Nat) : NetState :=
  let st : NetState :=
    { nodenum := nodenum
      across := fun _ => 0
      across_last := fun _ => 0
      across_history := fun _ => 0
      jac := fun _ _ => 0
      bequiv := fun _ => 0
      converged := false }
  let jb := stamp devs st.jac st.bequiv
  { st with jac := jb.1, bequiv := jb.2 }

/-- The linear-solve call made inside `Netlist.minor_step`: solve the
re-stamped system (`none` models a raised `numpy.linalg.LinAlgError`). -/
def minor_solve (p : SimParams) (k : Nat) (t dt : ℚ) (st : NetState) :
    Option (Nat → ℚ) :=
  let jb := stamp (p.devfn k t dt st) st.jac st.bequiv
  p.solve jb.1 jb.2 st.nodenum

/-- `Netlist.minor_step(k, t, dt)`: run every device's `minor_step` hook,
re-stamp, try `across[1:] = la.solve(jac[1:, 1:], bequiv[1:])` (on
`LinAlgError` set `success = False` and leave `across` unchanged), then if
the solve succeeded test elementwise convergence of `across` against
`across_last`, and finally `across_last = numpy.copy(across)` regardless.
Returns the updated state and the `success` flag. -/
def minor_step (p : SimParams) (k : Nat) (t dt : ℚ) (st : NetState) :
    NetState × Bool :=
  let jb := stamp (p.devfn k t dt st) st.jac st.bequiv
  let st1 := { st with jac := jb.1, bequiv := jb.2 }
  match p.solve jb.1 jb.2 st.nodenum with
  | none => ({ st1 with across_last := st1.across }, false)
  | some sol =>
      let across1 : Nat → ℚ :=
        fun i => if 1 ≤ i ∧ i < st1.nodenum then sol i else st1.across i
      let conv : Bool :=
        (List.range st1.nodenum).all fun i =>
          decide (|across1 i - st1.across_last i| ≤ p.tol)
      ({ st1 with across := across1, converged := conv, across_last := across1 },
       true)

/-- The `while k < self.simulator.maxitr and not self.converged` loop of
`Netlist.step`, with `fuel = maxitr - k` made explicit.  `success` starts
`True`; a failing minor step breaks out with `False`; exiting the loop
normally keeps the last (or initial) `True`. -/
def newton_loop (p : SimParams) (t dt : ℚ) : Nat → Nat → NetState → NetState × Bool
  | 0, _, st => (st, true)
  | fuel + 1, k, st =>
      if st.converged then (st, true)
      else
        let r := minor_step p k t dt st
        if r.2 then newton_loop p t dt fuel (k + 1) r.1 else (r.1, false)

/-- `Netlist.step(t, dt)`: reset `converged`, run the Newton loop, then
unconditionally `across_last = numpy.copy(across)` and
`across_history = numpy.copy(across)`, and return `success`.
(`print_matrices` is console output only and is omitted.) -/
def step (p : SimParams) (t dt : ℚ) (st : NetState) : NetState × Bool :=
  let r := newton_loop p t dt p.maxitr 0 { st with converged := false }
  ({ r.1 with across_last := r.1.across, across_history := r.1.across }, r.2)

/-- The timestep loop of `Simulator.trans`: for each of the `n` steps call
`netlist.step(tstep, t)` (the source passes `tstep` as the first argument
and the running time as the second), on success record a copy of `across`
and keep going, on failure break out at once.  Returns the recorded data
and whether the run completed.  (The progress printing, and the
`simulation_hook`/`device.update()` prelude — absorbed here into the device
hook parameter — do not affect control flow.) -/
def trans_loop (p : SimParams) (tstep : ℚ) :
    Nat → Nat → NetState → List (Nat → ℚ) → List (Nat → ℚ) × Bool
  | 0, _, _, acc => (acc.reverse, true)
  | m + 1, i, st, acc =>
      let r := step p tstep (i * tstep) st
      if r.2 then trans_loop p tstep m (i + 1) r.1 (r.1.across :: acc)
      else (acc.reverse, false)

/-! Device local stamps (`subcircuit/devices/{r,c,l}.py`).  Each device's
local arrays are created zeroed by `MNADevice.__init__`; the `start`/`update`
hooks below write the listed entries. -/

/-- `R.update`: `g = 1/value` if `value` is nonzero else `1.0E12`;
`jac[0,0]=g, jac[0,1]=-g, jac[1,0]=-g, jac[1,1]=g`.  (`R.start` just calls
`update`.) -/
def R_update (value : ℚ) : Nat → Nat → ℚ :=
  let g : ℚ := if value = 0 then 1000000000000 else 1 / value
  fun a b =>
    if a = 0 ∧ b = 0 then g
    else if a = 0 ∧ b = 1 then -g
    else if a = 1 ∧ b = 0 then -g
    else if a = 1 ∧ b = 1 then g
    else 0

/-- `C.start(dt)`: `jac[0,0]=C/dt, jac[0,1]=-C/dt, jac[1,0]=-C/dt,
`jac[1,1]=C/dt`. -/
def C_start (value dt : ℚ) : Nat → Nat → ℚ :=
  fun a b =>
    if a = 0 ∧ b = 0 then value / dt
    else if a = 0 ∧ b = 1 then -(value / dt)
    else if a = 1 ∧ b = 0 then -(value / dt)
    else if a = 1 ∧ b = 1 then value / dt
    else 0

/-- `L.start(dt)` (2-terminal form, port 2 is the internal branch-current
node): `jac[0,2]=1, jac[1,2]=-1, jac[2,0]=1, jac[2,1]=-1,`
`jac[2,2]=-(res + value/dt)`. -/
def L_start (value res dt : ℚ) : Nat → Nat → ℚ :=
  fun a b =>
    if a = 0 ∧ b = 2 then 1
    else if a = 1 ∧ b = 2 then -1
    else if a = 2 ∧ b = 0 then 1
    else if a = 2 ∧ b = 1 then -1
    else if a = 2 ∧ b = 2 then -(res + value / dt)
    else 0

/-- Sum of row `i` of a local Jacobian over the device's `nn` ports. -/
def row_sum (jac : Nat → Nat → ℚ) (nn i : Nat) : ℚ :=
  ((List.range nn).map (jac i)).sum

/-! Subcircuit flattening (`Netlist.flatten` in `netlist.py`) and the
subcircuit-instance device (`X` in `subcircuit/devices/x.py`). -/

/-- A device as stored in a device set before node resolution: its `name`
attribute and its node references (names). -/
structure RawDevice where
  name : String
  nodes : List String
deriving DecidableEq

/-- A subcircuit definition: declared external port names and the named
devices inside it. -/
structure SubcktDef where
  ports : List String
  devices : List (String × RawDevice)
deriving DecidableEq

/-- An entry of the top-level device set: either a plain device or a
subcircuit instance (an `X` device) with its externally supplied nodes and
its subcircuit definition. -/
inductive Entry where
  | plain : RawDevice → Entry
  | xdev : List String → SubcktDef → Entry
deriving DecidableEq

/-- `Netlist.flatten`: keep the non-`X` top-level devices; remove each `X`
entry and register every device of its subcircuit under the mangled name
`"{instance}_{device}"` (also assigned to the device's `name` attribute).
Node references are carried over as they are. -/
def flatten (top : List (String × Entry)) : List (String × RawDevice) :=
  (top.filterMap fun ne =>
    match ne.2 with
    | .plain d => some (ne.1, d)
    | .xdev _ _ => none)
  ++ (top.foldr (fun ne acc =>
        (match ne.2 with
         | .plain _ => []
         | .xdev _ s => s.devices.map fun dd =>
             (ne.1 ++ "_" ++ dd.1, { dd.2 with name := ne.1 ++ "_" ++ dd.1 }))
        ++ acc) [])

/-- `X.connect`: `for p, n in zip(subckt.ports, self.nodes):`
`port2node[p] = n` — the instance's port-name-to-external-node map.  It is
built on the `X` device itself and is not consulted by `flatten`. -/
def X_connect (ports : List String) (xnodes : List String) : List (String × String) :=
  ports.zip xnodes

/-- `Subckt.device(name, device)` (`subcircuit/interfaces.py`; `Netlist.device`
delegates to it): if the name is not yet in the device set, add the device
under it (setting its `name` attribute) and return `True`; otherwise leave
the set unchanged and return `False`. -/
def Subckt_device (devices : List (String × RawDevice)) (nm : String)
    (d : RawDevice) : List (String × RawDevice) × Bool :=
  match devices.lookup nm with
  | none => (devices ++ [(nm, { d with name := nm })], true)
  | some _ => (devices, false)

/-! Piecewise-linear interpolation: `Table._interp_`
(`subcircuit/interfaces.py`), which keeps a persistent `cursor`, and
`Pwl._interp_` (`subcircuit/stimuli.py`), which rescans from index 1 on
every call. -/

/-- List indexing `l[i]` over ℚ (out-of-range reads return 0; all uses in
the source are in range). -/
def getq (l : List ℚ) (i : Nat) : ℚ := l.getD i 0

/-- The shared scan loop `while x > xp[i] and i < len(xp) - 1: i += 1`,
with explicit fuel (the loop advances at most `len - 1 - i` times, so any
fuel of at least `len` is exact). -/
def scan (xp : List ℚ) (x : ℚ) : Nat → Nat → Nat
  | 0, i => i
  | fuel + 1, i =>
      if x > getq xp i ∧ i < xp.length - 1 then scan xp x fuel (i + 1) else i

/-- The lookup table with its stored breakpoints and persistent
interpolation cursor. -/
structure Table where
  xp : List ℚ
  yp : List ℚ
  cursor : Nat
deriving DecidableEq

/-- `Table._interp_(x)` (also `Table.output`): clamp outside the breakpoint
range; otherwise advance the scan starting from the saved `cursor`, store
the new cursor, and interpolate on segment `(i-1, i)`. -/
def Table_interp (tb : Table) (x : ℚ) : Table × ℚ :=
  if x ≤ getq tb.xp 0 then (tb, getq tb.yp 0)
  else if x ≥ tb.xp.getLastD 0 then (tb, tb.yp.getLastD 0)
  else
    let i := scan tb.xp x tb.xp.length tb.cursor
    ({ tb with cursor := i },
      getq tb.yp (i - 1)
        + (getq tb.yp i - getq tb.yp (i - 1)) * (x - getq tb.xp (i - 1))
          / (getq tb.xp i - getq tb.xp (i - 1)))

/-- `Pwl._interp_(x)`: clamp outside the breakpoint range; otherwise scan
from `itr = 1` (no saved cursor) and interpolate on segment
`(itr-1, itr)`. -/
def Pwl_interp (xp yp : List ℚ) (x : ℚ) : ℚ :=
  if x ≤ getq xp 0 then getq yp 0
  else if x ≥ xp.getLastD 0 then yp.getLastD 0
  else
    let i := scan xp x xp.length 1
    getq yp (i - 1)
      + (getq yp i - getq yp (i - 1)) * (x - getq xp (i - 1))
        / (getq xp i - getq xp (i - 1))

/-! Concrete circuits used to exercise the model.  `devR` and `devI` are a
1 Ω resistor and a 1 A current source, each between global node 1 and
ground, carrying the local stamps their `setup`/`update` hooks produce.
`solve1` models `numpy.linalg.solve` on the reduced 1-by-1 system of a
two-node circuit: it fails (raises) exactly when the reduced matrix is
singular. -/

def devR : Device := { nodes := [(0, 1), (1, 0)], jac := R_update 1, bequiv := fun _ => 0 }

def devI : Device :=
  { nodes := [(0, 1), (1, 0)], jac := fun _ _ => 0,
    bequiv := fun a => (if a = 0 then 1 else if a = 1 then -1 else 0) }

def solve1 (J : Nat → Nat → ℚ) (B : Nat → ℚ) (_n : Nat) : Option (Nat → ℚ) :=
  if J 1 1 = 0 then none else some fun i => B i / J 1 1

/-- A total variant of the modelled solver, for circuits whose reduced
matrix stays invertible. -/
def solveT (J : Nat → Nat → ℚ) (B : Nat → ℚ) (_n : Nat) : Option (Nat → ℚ) :=
  some fun i => B i / J 1 1

/-- Parameters for the R-parallel-I circuit with a Newton cap of one. -/
def pC1 : SimParams :=
  { maxitr := 1, tol := 1 / 1000, devfn := fun _ _ _ _ => [devR, devI], solve := solve1 }

/-- The same circuit with the total solver. -/
def pT : SimParams :=
  { maxitr := 1, tol := 1 / 1000, devfn := fun _ _ _ _ => [devR, devI], solve := solveT }

/-- Initial state of the R-parallel-I circuit (two global nodes). -/
def stC1 : NetState := setup [devR, devI] 2

/-- A singular circuit: the current source alone leaves the reduced matrix
all zero, so the linear solve fails. -/
def pSing : SimParams :=
  { maxitr := 1, tol := 1 / 1000, devfn := fun _ _ _ _ => [devI], solve := solve1 }

/-- Initial state of the singular circuit. -/
def stSing : NetState := setup [devI] 2

/-! The gather (sum) form of the stamp, written as the specification
describes it: the global Jacobian entry is the sum of local entries over
all devices and port pairs addressing it, and similarly for the
b-equivalent vector. -/

/-- Sum of `device.jac[pi, pj]` over all devices and port pairs `(pi, pj)`
whose global nodes are `(ni, nj)`. -/
def gather_jac (devices : List Device) (ni nj : Nat) : ℚ :=
  (devices.map fun d =>
    ((d.nodes.filter fun pn => pn.2 == ni).map fun pn =>
      ((d.nodes.filter fun qn => qn.2 == nj).map fun qn => d.jac pn.1 qn.1).sum).sum).sum

/-- Sum of `device.bequiv[pi]` over all devices and ports `pi` whose global
node is `ni`. -/
def gather_bequiv (devices : List Device) (ni : Nat) : ℚ :=
  (devices.map fun d =>
    ((d.nodes.filter fun pn => pn.2 == ni).map fun pn => d.bequiv pn.1).sum).sum

lemma foldl_updMat (f : Nat → ℚ) (gi : Nat) :
    ∀ (l : List (Nat × Nat)) (J : Nat → Nat → ℚ) (a b : Nat),
      (l.foldl (fun j qn => updMat j gi qn.2 (f qn.1)) J) a b
        = J a b + (if gi = a
            then ((l.filter fun qn => qn.2 == b).map fun qn => f qn.1).sum else 0) := by
  intro l
  induction l with
  | nil => intro J a b; simp
  | cons q l ih =>
      intro J a b
      have hstep : (updMat J gi q.2 (f q.1)) a b
          = if a = gi ∧ b = q.2 then J a b + f q.1 else J a b := rfl
      simp only [List.foldl_cons, ih, List.filter_cons, hstep]
      by_cases hga : gi = a
      · by_cases hqb : q.2 = b
        · simp [hga, hqb, add_assoc]
        · have hne : ¬(b = q.2) := fun h => hqb h.symm
          simp [hga, hqb, hne]
      · have hne : ¬(a = gi) := fun h => hga h.symm
        by_cases hqb : q.2 = b
        · simp [hga, hqb, hne]
        · simp [hga, hqb, hne]

lemma foldl_stampDevice_body (d : Device) :
    ∀ (l : List (Nat × Nat)) (jb : (Nat → Nat → ℚ) × (Nat → ℚ)) (a b : Nat),
      ((l.foldl
          (fun jb pn =>
            (d.nodes.foldl (fun j qn => updMat j pn.2 qn.2 (d.jac pn.1 qn.1)) jb.1,
             updVec jb.2 pn.2 (d.bequiv pn.1)))
          jb).1 a b
        = jb.1 a b + ((l.filter fun pn => pn.2 == a).map fun pn =>
            ((d.nodes.filter fun qn => qn.2 == b).map fun qn => d.jac pn.1 qn.1).sum).sum)
      ∧ ((l.foldl
          (fun jb pn =>
            (d.nodes.foldl (fun j qn => updMat j pn.2 qn.2 (d.jac pn.1 qn.1)) jb.1,
             updVec jb.2 pn.2 (d.bequiv pn.1)))
          jb).2 a
        = jb.2 a + ((l.filter fun pn => pn.2 == a).map fun pn => d.bequiv pn.1).sum) := by
  intro l
  induction l with
  | nil => intro jb a b; simp
  | cons p l ih =>
      intro jb a b
      constructor
      · simp only [List.foldl_cons, (ih _ a b).1, foldl_updMat, List.filter_cons]
        by_cases hpa : p.2 = a
        · simp [hpa, add_assoc]
        · simp [hpa]
      · have hstep : (updVec jb.2 p.2 (d.bequiv p.1)) a
            = if a = p.2 then jb.2 a + d.bequiv p.1 else jb.2 a := rfl
        simp only [List.foldl_cons, (ih _ a b).2, List.filter_cons, hstep]
        by_cases hpa : p.2 = a
        · simp [hpa, add_assoc]
        · have hne : ¬(a = p.2) := fun h => hpa h.symm
          simp [hpa, hne]

lemma stampDevice_jac (d : Device) (jb : (Nat → Nat → ℚ) × (Nat → ℚ)) (a b : Nat) :
    (stampDevice d jb).1 a b
      = jb.1 a b + ((d.nodes.filter fun pn => pn.2 == a).map fun pn =>
          ((d.nodes.filter fun qn => qn.2 == b).map fun qn => d.jac pn.1 qn.1).sum).sum :=
  (foldl_stampDevice_body d d.nodes jb a b).1

lemma stampDevice_beq (d : Device) (jb : (Nat → Nat → ℚ) × (Nat → ℚ)) (a b : Nat) :
    (stampDevice d jb).2 a
      = jb.2 a + ((d.nodes.filter fun pn => pn.2 == a).map fun pn => d.bequiv pn.1).sum :=
  (foldl_stampDevice_body d d.nodes jb a b).2

lemma stamp_foldl_apply :
    ∀ (ds : List Device) (jb : (Nat → Nat → ℚ) × (Nat → ℚ)) (a b : Nat),
      ((ds.foldl (fun jb d => stampDevice d jb) jb).1 a b
          = jb.1 a b + gather_jac ds a b)
      ∧ ((ds.foldl (fun jb d => stampDevice d jb) jb).2 a
          = jb.2 a + gather_bequiv ds a) := by
  intro ds
  induction ds with
  | nil => intro jb a b; simp [gather_jac, gather_bequiv]
  | cons d ds ih =>
      intro jb a b
      constructor
      · rw [List.foldl_cons, (ih (stampDevice d jb) a b).1, stampDevice_jac d jb a b]
        simp only [gather_jac, List.map_cons, List.sum_cons]
        ring
      · rw [List.foldl_cons, (ih (stampDevice d jb) a b).2, stampDevice_beq d jb a b]
        simp only [gather_bequiv, List.map_cons, List.sum_cons]
        ring

/-- Claim C3: after each call to `Netlist.stamp`, every global Jacobian
entry equals the sum of the local Jacobian entries of all device port
pairs addressing it, every global b-equivalent entry equals the sum of the
local b-equivalent entries of all device ports addressing it, and entries
addressed by no device port are exactly zero — independently of the
arrays' previous contents, so each call fully rebuilds the arrays. -/
theorem stamp_rebuilds_from_device_sums :
    ∀ (devices : List Device) (prevJac : Nat → Nat → ℚ) (prevB : Nat → ℚ) (ni nj : Nat),
      (stamp devices prevJac prevB).1 ni nj = gather_jac devices ni nj
      ∧ (stamp devices prevJac prevB).2 ni = gather_bequiv devices ni
      ∧ ((∀ d ∈ devices, ∀ pn ∈ d.nodes, pn.2 ≠ ni) →
          (stamp devices prevJac prevB).1 ni nj = 0
          ∧ (stamp devices prevJac prevB).2 ni = 0) := by
  intro devices prevJac prevB ni nj
  have h := stamp_foldl_apply devices (fun _ _ => 0, fun _ => 0) ni nj
  refine ⟨by simpa [stamp] using h.1, by simpa [stamp] using h.2, ?_⟩
  intro hno
  have hfil : ∀ d ∈ devices, (d.nodes.filter fun pn => pn.2 == ni) = [] := by
    intro d hd
    refine List.filter_eq_nil_iff.mpr ?_
    intro pn hpn
    simpa using hno d hd pn hpn
  have hj : gather_jac devices ni nj = 0 := by
    unfold gather_jac
    refine List.sum_eq_zero ?_
    intro q hq
    rcases List.mem_map.mp hq with ⟨d, hd, rfl⟩
    simp [hfil d hd]
  have hb : gather_bequiv devices ni = 0 := by
    unfold gather_bequiv
    refine List.sum_eq_zero ?_
    intro q hq
    rcases List.mem_map.mp hq with ⟨d, hd, rfl⟩
    simp [hfil d hd]
  exact ⟨by simpa [stamp, hj] using h.1, by simpa [stamp, hb] using h.2⟩

/-- Witness for C3 at a concrete circuit: node 5 is addressed by no port of
the R-I circuit, and its stamped row and entry are zero. -/
theorem stamp_rebuilds_from_device_sums_witness :
    (∀ d ∈ [devR, devI], ∀ pn ∈ d.nodes, pn.2 ≠ 5)
    ∧ (stamp [devR, devI] (fun _ _ => 3) (fun _ => 4)).1 5 0 = 0
    ∧ (stamp [devR, devI] (fun _ _ => 3) (fun _ => 4)).2 5 = 0 := by
  have hno : ∀ d ∈ [devR, devI], ∀ pn ∈ d.nodes, pn.2 ≠ 5 := by decide
  have h := (stamp_rebuilds_from_device_sums [devR, devI]
    (fun _ _ => 3) (fun _ => 4) 5 0).2.2 hno
  exact ⟨hno, h.1, h.2⟩

/-- Claim C4: every Newton minor step ends with `across_last` replaced by a
copy of `across` (whether or not the solve succeeded or convergence was
declared), and when the solve succeeds it declares convergence exactly when
every component satisfies the elementwise tolerance test against the
previous iterate. -/
theorem minor_step_convergence_test :
    ∀ (p : SimParams) (k : Nat) (t dt : ℚ) (st : NetState),
      ((minor_step p k t dt st).1.across_last = (minor_step p k t dt st).1.across)
      ∧ ((minor_step p k t dt st).2 = true →
          ((minor_step p k t dt st).1.converged = true ↔
            ∀ i < st.nodenum,
              |(minor_step p k t dt st).1.across i - st.across_last i| ≤ p.tol)) := by
  intro p k t dt st
  unfold minor_step
  cases h : p.solve (stamp (p.devfn k t dt st) st.jac st.bequiv).1
      (stamp (p.devfn k t dt st) st.jac st.bequiv).2 st.nodenum with
  | none => simp only [h]; simp
  | some sol =>
      simp only [h]
      constructor
      · trivial
      · intro _
        simp [List.all_eq_true, List.mem_range]

/-- Witness for C4 at a successful concrete minor step of the R-I
circuit. -/
theorem minor_step_convergence_test_witness :
    (minor_step pC1 0 0 1 stC1).2 = true
    ∧ ((minor_step pC1 0 0 1 stC1).1.converged = true ↔
        ∀ i < stC1.nodenum,
          |(minor_step pC1 0 0 1 stC1).1.across i - stC1.across_last i| ≤ pC1.tol) := by
  refine ⟨?_, ?_⟩
  · norm_num [minor_step, stamp, stampDevice, updMat, updVec, solve1, setup,
      pC1, stC1, devR, devI, R_update]
  · exact (minor_step_convergence_test pC1 0 0 1 stC1).2
      (by norm_num [minor_step, stamp, stampDevice, updMat, updVec, solve1, setup,
        pC1, stC1, devR, devI, R_update])

lemma minor_step_ground (p : SimParams) (k : Nat) (t dt : ℚ) (st : NetState)
    (h : st.across 0 = 0) : (minor_step p k t dt st).1.across 0 = 0 := by
  unfold minor_step
  cases hs : p.solve (stamp (p.devfn k t dt st) st.jac st.bequiv).1
      (stamp (p.devfn k t dt st) st.jac st.bequiv).2 st.nodenum with
  | none => simp only [hs]; simpa using h
  | some sol => simp only [hs]; simpa using h

lemma newton_loop_ground (p : SimParams) (t dt : ℚ) :
    ∀ (fuel k : Nat) (st : NetState), st.across 0 = 0 →
      (newton_loop p t dt fuel k st).1.across 0 = 0 := by
  intro fuel
  induction fuel with
  | zero => intro k st h; simpa [newton_loop] using h
  | succ fuel ih =>
      intro k st h
      rw [newton_loop]
      by_cases hc : st.converged
      · simpa [hc] using h
      · simp only [hc, if_false, Bool.false_eq_true]
        by_cases hr : (minor_step p k t dt st).2
        · simpa [hr] using ih (k + 1) _ (minor_step_ground p k t dt st h)
        · simpa [hr] using minor_step_ground p k t dt st h

lemma step_ground (p : SimParams) (t dt : ℚ) (st : NetState)
    (h : st.across 0 = 0) : (step p t dt st).1.across 0 = 0 := by
  unfold step
  simpa using newton_loop_ground p t dt p.maxitr 0 { st with converged := false } h

/-- Claim C5: the ground entry `across[0]` is zero after `setup`, and is
preserved by every Newton minor step, by the whole Newton loop, and by
every timestep: the linear solve writes only `across[1:]`, and devices never
write the global vectors (device hooks produce only local stamps in this
model, mirroring the source's read-only device access). -/
theorem ground_invariant :
    (∀ (devs : List Device) (n : Nat), (setup devs n).across 0 = 0)
    ∧ (∀ (p : SimParams) (k : Nat) (t dt : ℚ) (st : NetState),
        st.across 0 = 0 → (minor_step p k t dt st).1.across 0 = 0)
    ∧ (∀ (p : SimParams) (t dt : ℚ) (fuel k : Nat) (st : NetState),
        st.across 0 = 0 → (newton_loop p t dt fuel k st).1.across 0 = 0)
    ∧ (∀ (p : SimParams) (t dt : ℚ) (st : NetState),
        st.across 0 = 0 → (step p t dt st).1.across 0 = 0) :=
  ⟨fun _ _ => rfl,
   minor_step_ground,
   fun p t dt fuel k st h => newton_loop_ground p t dt fuel k st h,
   step_ground⟩

/-- Witness for C5 on the concrete R-I circuit: ground holds after setup
and after a full timestep. -/
theorem ground_invariant_witness :
    stC1.across 0 = 0 ∧ (step pC1 0 1 stC1).1.across 0 = 0 := by
  have h0 : stC1.across 0 = 0 := rfl
  exact ⟨h0, ground_invariant.2.2.2 pC1 0 1 stC1 h0⟩

lemma minor_step_success_of_total (p : SimParams) (k : Nat) (t dt : ℚ)
    (st : NetState) (hs : ∀ J B m, p.solve J B m ≠ none) :
    (minor_step p k t dt st).2 = true := by
  unfold minor_step
  cases h : p.solve (stamp (p.devfn k t dt st) st.jac st.bequiv).1
      (stamp (p.devfn k t dt st) st.jac st.bequiv).2 st.nodenum with
  | none => exact absurd h (hs _ _ _)
  | some sol => simp only [h]

lemma newton_loop_success_of_total (p : SimParams) (t dt : ℚ)
    (hs : ∀ J B m, p.solve J B m ≠ none) :
    ∀ (fuel k : Nat) (st : NetState), (newton_loop p t dt fuel k st).2 = true := by
  intro fuel
  induction fuel with
  | zero => intro k st; rfl
  | succ fuel ih =>
      intro k st
      rw [newton_loop]
      by_cases hc : st.converged
      · simp [hc]
      · have hm := minor_step_success_of_total p k t dt st hs
        simp [hc, hm, ih]

/-- Claim C1 (amended): `Netlist.step` returns `success = True` whenever no
minor step raises a linear-algebra error — in particular also when the
Newton cap `maxitr` is reached without the convergence test being
satisfied.  Non-convergence is recorded only in the `converged` flag, never
in the returned success value. -/
theorem step_success_independent_of_convergence :
    ∀ (p : SimParams) (t dt : ℚ) (st : NetState),
      (∀ J B m, p.solve J B m ≠ none) → (step p t dt st).2 = true := by
  intro p t dt st hs
  unfold step
  simpa using newton_loop_success_of_total p t dt hs p.maxitr 0 _

/-- Witness for the amended C1: the R-I circuit with a solver that never
fails reports a successful step. -/
theorem step_success_independent_of_convergence_witness :
    (∀ J B m, solveT J B m ≠ none) ∧ (step pT 0 1 stC1).2 = true := by
  have hs : ∀ (J : Nat → Nat → ℚ) (B : Nat → ℚ) (m : Nat), solveT J B m ≠ none := by
    intro J B m
    simp [solveT]
  exact ⟨hs, step_success_independent_of_convergence pT 0 1 stC1 hs⟩

/-- Counterexample to C1 as stated: with `maxitr = 1` the R-I circuit's
Newton cap is reached without the convergence test being satisfied
(`converged` is still `False` after the step), yet `Netlist.step` returns
`success = True` — the non-converged step is silently accepted, not
reported as failed. -/
theorem step_accepts_nonconverged_at_cap :
    (step pC1 0 1 stC1).2 = true ∧ (step pC1 0 1 stC1).1.converged = false := by
  norm_num [step, newton_loop, minor_step, stamp, stampDevice, updMat, updVec, solve1,
    setup, pC1, stC1, devR, devI, R_update, List.range_succ]

/-- Claim C2: a failed reduced linear solve (`LinAlgError`, modelled by the
solver returning `none`) makes the minor step return failure with `across`
untouched (no fallback solution), makes the Newton loop and the whole
timestep return failure, and makes the transient driver stop: the loop
returns immediately with no further timestep executed or recorded. -/
theorem solve_failure_aborts :
    (∀ (p : SimParams) (k : Nat) (t dt : ℚ) (st : NetState),
        minor_solve p k t dt st = none →
        (minor_step p k t dt st).2 = false
        ∧ (minor_step p k t dt st).1.across = st.across)
    ∧ (∀ (p : SimParams) (t dt : ℚ) (fuel k : Nat) (st : NetState),
        st.converged = false → minor_solve p k t dt st = none →
        (newton_loop p t dt (fuel + 1) k st).2 = false)
    ∧ (∀ (p : SimParams) (t dt : ℚ) (st : NetState),
        0 < p.maxitr → minor_solve p 0 t dt { st with converged := false } = none →
        (step p t dt st).2 = false ∧ (step p t dt st).1.across = st.across)
    ∧ (∀ (p : SimParams) (tstep : ℚ) (m i : Nat) (st : NetState)
          (acc : List (Nat → ℚ)),
        (step p tstep (i * tstep) st).2 = false →
        trans_loop p tstep (m + 1) i st acc = (acc.reverse, false)) := by
  have hminor : ∀ (p : SimParams) (k : Nat) (t dt : ℚ) (st : NetState),
      minor_solve p k t dt st = none →
      (minor_step p k t dt st).2 = false
      ∧ (minor_step p k t dt st).1.across = st.across := by
    intro p k t dt st h
    unfold minor_solve at h
    unfold minor_step
    simp only [h]
    exact ⟨trivial, trivial⟩
  have hloop : ∀ (p : SimParams) (t dt : ℚ) (fuel k : Nat) (st : NetState),
      st.converged = false → minor_solve p k t dt st = none →
      (newton_loop p t dt (fuel + 1) k st).2 = false := by
    intro p t dt fuel k st hc h
    rw [newton_loop]
    simp [hc, (hminor p k t dt st h).1]
  refine ⟨hminor, hloop, ?_, ?_⟩
  · intro p t dt st hmax h
    obtain ⟨fuel, hfuel⟩ : ∃ fuel, p.maxitr = fuel + 1 :=
      ⟨p.maxitr - 1, (Nat.succ_pred_eq_of_pos hmax).symm⟩
    have hc : ({ st with converged := false } : NetState).converged = false := rfl
    have h1 := hloop p t dt fuel 0 { st with converged := false } hc h
    have h2 := hminor p 0 t dt { st with converged := false } h
    constructor
    · unfold step
      rw [hfuel]
      simpa using h1
    · unfold step
      rw [hfuel]
      rw [newton_loop]
      simp only [hc, Bool.false_eq_true, if_false, (hminor p 0 t dt _ h).1]
      simpa using h2.2
  · intro p tstep m i st acc h
    rw [trans_loop]
    simp [h]

/-- Witness for C2 on the singular circuit (current source alone): the
reduced matrix is all zero, the solve fails, the minor step, the timestep
and the transient loop all report failure, and nothing further is
recorded. -/
theorem solve_failure_aborts_witness :
    minor_solve pSing 0 (0 * (1 : ℚ)) 1 { stSing with converged := false } = none
    ∧ (step pSing (0 * (1 : ℚ)) 1 stSing).2 = false
    ∧ (step pSing (0 * (1 : ℚ)) 1 stSing).1.across = stSing.across
    ∧ trans_loop pSing 1 1 0 stSing [] = ([], false) := by
  have hnone : minor_solve pSing 0 (0 * (1 : ℚ)) 1 { stSing with converged := false } = none := by
    norm_num [minor_solve, stamp, stampDevice, updMat, updVec, solve1, setup,
      pSing, stSing, devI]
  have hmax : 0 < pSing.maxitr := Nat.zero_lt_one
  have hstep := (solve_failure_aborts.2.2.1 pSing (0 * (1 : ℚ)) 1 stSing hmax hnone)
  have hstep2 : (step pSing ((0 : Nat) * (1 : ℚ)) 1 stSing).2 = false := by
    simpa using hstep.1
  have htrans := solve_failure_aborts.2.2.2 pSing 1 0 0 stSing [] ?_
  · exact ⟨hnone, hstep.1, hstep.2, by simpa using htrans⟩
  · simpa using hstep2

/-- Claim C10: `Netlist.step` unconditionally overwrites both `across_last`
and `across_history` with a copy of the current `across` vector before
returning — also when the step failed, so the pre-step history is not
preserved on error. -/
theorem step_overwrites_history :
    ∀ (p : SimParams) (t dt : ℚ) (st : NetState),
      (step p t dt st).2 = false →
      (step p t dt st).1.across_last = (step p t dt st).1.across
      ∧ (step p t dt st).1.across_history = (step p t dt st).1.across := by
  intro p t dt st _
  unfold step
  exact ⟨rfl, rfl⟩

/-- Witness for C10: the singular circuit's failing step still leaves
`across_last` and `across_history` equal to `across`. -/
theorem step_overwrites_history_witness :
    (step pSing 0 1 stSing).2 = false
    ∧ (step pSing 0 1 stSing).1.across_last = (step pSing 0 1 stSing).1.across
    ∧ (step pSing 0 1 stSing).1.across_history = (step pSing 0 1 stSing).1.across := by
  have hf : (step pSing 0 1 stSing).2 = false := by
    norm_num [step, newton_loop, minor_step, stamp, stampDevice, updMat, updVec,
      solve1, setup, pSing, stSing, devI]
  have h := step_overwrites_history pSing 0 1 stSing hf
  exact ⟨hf, h.1, h.2⟩

/-- Claim C6 (amended): for the resistor and the capacitor every row of the
local Jacobian sums to zero for all parameter values; the inductor's
gyrator stamp does not have this property — its three row sums are `1`,
`-1` and `-(res + L/dt)`. -/
theorem passive_row_sums :
    ∀ (rv cv lv res dt : ℚ),
      (∀ i, i < 2 → row_sum (R_update rv) 2 i = 0 ∧ row_sum (C_start cv dt) 2 i = 0)
      ∧ row_sum (L_start lv res dt) 3 0 = 1
      ∧ row_sum (L_start lv res dt) 3 1 = -1
      ∧ row_sum (L_start lv res dt) 3 2 = -(res + lv / dt) := by
  intro rv cv lv res dt
  refine ⟨?_, ?_, ?_, ?_⟩
  · intro i hi
    interval_cases i <;>
      constructor <;>
        simp [row_sum, R_update, C_start, List.range_succ]
  · simp [row_sum, L_start, List.range_succ]
  · simp [row_sum, L_start, List.range_succ]
  · simp [row_sum, L_start, List.range_succ]

/-- Witness for the amended C6 at concrete parameter values. -/
theorem passive_row_sums_witness :
    (0 : Nat) < 2
    ∧ row_sum (R_update 5) 2 0 = 0 ∧ row_sum (C_start 3 (1 / 2)) 2 0 = 0
    ∧ row_sum (L_start 1 0 1) 3 2 = -(0 + 1 / 1) := by
  have h := passive_row_sums 5 3 1 0 (1 / 2)
  have h1 := (h.1 0 (by decide)).1
  have h2 := (h.1 0 (by decide)).2
  have h3 := (passive_row_sums 5 3 1 0 1).2.2.2
  exact ⟨by decide, h1, h2, h3⟩

/-- Counterexample to C6 as stated: the first row of the inductor's local
Jacobian after `L.start(dt)` (value 1 H, no series resistance, `dt = 1`)
sums to `1`, not `0`. -/
theorem inductor_row_sum_nonzero :
    row_sum (L_start 1 0 1) 3 0 ≠ 0 := by
  norm_num [row_sum, L_start, List.range_succ]

lemma mem_foldr_append {α β : Type} (g : α → List β) :
    ∀ (L : List α) (x : β),
      x ∈ L.foldr (fun a acc => g a ++ acc) [] ↔ ∃ a ∈ L, x ∈ g a := by
  intro L
  induction L with
  | nil => intro x; simp
  | cons a L ih => intro x; simp [ih]

/-- Claim C7 (amended): `Netlist.flatten` removes the subcircuit-instance
entries and registers every device of an instance's definition in the
top-level set under the mangled name `"<instance>_<device>"` (also written
to the device's name attribute), while plain top-level devices are kept;
no copy of the node references is made — the registered device keeps the
definition's node names verbatim (external port names are not replaced by
the instance's supplied nodes and internal names are not mangled), so
several instances of one definition refer to identical internal node
names. -/
theorem flatten_mangles_names_only :
    (∀ (top : List (String × Entry)) (iname : String) (xnodes : List String)
        (s : SubcktDef) (dn : String) (d : RawDevice),
      (iname, Entry.xdev xnodes s) ∈ top → (dn, d) ∈ s.devices →
      (iname ++ "_" ++ dn, { d with name := iname ++ "_" ++ dn }) ∈ flatten top
      ∧ ({ d with name := iname ++ "_" ++ dn } : RawDevice).nodes = d.nodes)
    ∧ (∀ (top : List (String × Entry)) (pn : String) (pd : RawDevice),
        (pn, Entry.plain pd) ∈ top → (pn, pd) ∈ flatten top) := by
  constructor
  · intro top iname xnodes s dn d htop hdev
    refine ⟨?_, rfl⟩
    unfold flatten
    refine List.mem_append.mpr (Or.inr ?_)
    refine (mem_foldr_append _ top _).mpr ⟨(iname, Entry.xdev xnodes s), htop, ?_⟩
    simp only []
    exact List.mem_map.mpr ⟨(dn, d), hdev, rfl⟩
  · intro top pn pd htop
    unfold flatten
    refine List.mem_append.mpr (Or.inl ?_)
    exact List.mem_filterMap.mpr ⟨(pn, Entry.plain pd), htop, rfl⟩

/-- Concrete subcircuit definition: one declared port `p`, one device `d1`
whose node references are the external port `p` and the internal node
`int1`. -/
def sDefC7 : SubcktDef :=
  { ports := ["p"], devices := [("d1", { name := "d1", nodes := ["p", "int1"] })] }

/-- A netlist with two instances of `sDefC7`, supplying external nodes `n5`
and `n6`. -/
def topC7 : List (String × Entry) :=
  [("x1", .xdev ["n5"] sDefC7), ("x2", .xdev ["n6"] sDefC7)]

/-- Witness for the amended C7 on the concrete two-instance netlist. -/
theorem flatten_mangles_names_only_witness :
    ((("x1" : String), Entry.xdev ["n5"] sDefC7) ∈ topC7
      ∧ (("d1" : String), ({ name := "d1", nodes := ["p", "int1"] } : RawDevice))
          ∈ sDefC7.devices)
    ∧ (("x1_d1" : String),
        ({ name := "x1_d1", nodes := ["p", "int1"] } : RawDevice)) ∈ flatten topC7 := by
  refine ⟨⟨by decide, by decide⟩, ?_⟩
  exact ((flatten_mangles_names_only.1 topC7 "x1" ["n5"] sDefC7 "d1"
    { name := "d1", nodes := ["p", "int1"] } (by decide) (by decide)).1)

/-- Counterexample to C7 as stated: after flattening the two-instance
netlist, both registered clones keep the literal node references
`["p", "int1"]` — the external port reference `p` is not replaced by the
supplied node (`n5`/`n6`) and the internal reference `int1` is not mangled
to an instance-unique name, so the two instances collide on the same
internal node name. -/
theorem flatten_does_not_rewrite_nodes :
    (flatten topC7).map (fun nd => (nd.1, nd.2.nodes))
      = [("x1_d1", ["p", "int1"]), ("x2_d1", ["p", "int1"])]
    ∧ (["p", "int1"] : List String) ≠ ["n5", "x1_int1"]
    ∧ (["p", "int1"] : List String) ≠ ["n6", "x2_int1"] := by
  refine ⟨by decide, by decide, by decide⟩

/-- Claim C9 (amended): adding a device under a name already present leaves
the device set unchanged and returns `False` — no exception is raised and
the device is not auto-renamed; adding under a fresh name appends the
device and returns `True`. -/
theorem device_add_collision_behavior :
    (∀ (devices : List (String × RawDevice)) (nm : String) (d x : RawDevice),
        devices.lookup nm = some x → Subckt_device devices nm d = (devices, false))
    ∧ (∀ (devices : List (String × RawDevice)) (nm : String) (d : RawDevice),
        devices.lookup nm = none →
        Subckt_device devices nm d
          = (devices ++ [(nm, { d with name := nm })], true)) := by
  constructor
  · intro devices nm d x h
    unfold Subckt_device
    rw [h]
  · intro devices nm d h
    unfold Subckt_device
    rw [h]

/-- A one-device set for exercising name collisions. -/
def dsC9 : List (String × RawDevice) := [("r1", { name := "r1", nodes := ["1", "0"] })]

/-- Witness for the amended C9 at the concrete collision and at a fresh
name. -/
theorem device_add_collision_behavior_witness :
    dsC9.lookup "r1" = some { name := "r1", nodes := ["1", "0"] }
    ∧ Subckt_device dsC9 "r1" { name := "", nodes := ["2", "3"] } = (dsC9, false)
    ∧ dsC9.lookup "r2" = none
    ∧ Subckt_device dsC9 "r2" { name := "", nodes := ["2", "3"] }
        = (dsC9 ++ [("r2", { name := "r2", nodes := ["2", "3"] })], true) := by
  refine ⟨by decide, ?_, by decide, ?_⟩
  · exact device_add_collision_behavior.1 dsC9 "r1" { name := "", nodes := ["2", "3"] }
      { name := "r1", nodes := ["1", "0"] } (by decide)
  · exact device_add_collision_behavior.2 dsC9 "r2"
      { name := "", nodes := ["2", "3"] } (by decide)

/-- Counterexample to C9 as stated: adding a second device under the
existing name `r1` does not fail loudly — `Subckt.device` returns normally
with `False` and the set is unchanged (the collision is silently dropped,
the return value being ignored by `Netlist.device`'s callers). -/
theorem device_add_collision_is_silent :
    Subckt_device dsC9 "r1" { name := "", nodes := ["2", "3"] } = (dsC9, false) := by
  decide

lemma getq_eq (l : List ℚ) (i : Nat) (h : i < l.length) : getq l i = l[i] := by
  simp [getq, List.getD_eq_getElem?_getD, List.getElem?_eq_getElem h]

lemma getLastD_eq_getq (l : List ℚ) : l.getLastD 0 = getq l (l.length - 1) := by
  simp [List.getLastD_eq_getLast?, List.getLast?_eq_getElem?, getq,
    List.getD_eq_getElem?_getD]

lemma getq_lt_getq (xp : List ℚ) (h : xp.Pairwise (· < ·)) {a b : Nat}
    (hab : a < b) (hb : b < xp.length) : getq xp a < getq xp b := by
  have ha : a < xp.length := lt_trans hab hb
  rw [getq_eq _ _ ha, getq_eq _ _ hb]
  exact List.pairwise_iff_getElem.mp h a b ha hb hab

lemma getq_le_getq (xp : List ℚ) (h : xp.Pairwise (· < ·)) {a b : Nat}
    (hab : a ≤ b) (hb : b < xp.length) : getq xp a ≤ getq xp b := by
  rcases Nat.eq_or_lt_of_le hab with rfl | hlt
  · exact le_refl _
  · exact le_of_lt (getq_lt_getq xp h hlt hb)

lemma scan_result (xp : List ℚ) (x : ℚ) :
    ∀ (fuel i : Nat), xp.length - 1 ≤ i + fuel → i ≤ xp.length - 1 →
      i ≤ scan xp x fuel i
      ∧ scan xp x fuel i ≤ xp.length - 1
      ∧ (x ≤ getq xp (scan xp x fuel i) ∨ scan xp x fuel i = xp.length - 1)
      ∧ (∀ m, i ≤ m → m < scan xp x fuel i → getq xp m < x) := by
  intro fuel
  induction fuel with
  | zero =>
      intro i hfe hi
      have hie : i = xp.length - 1 := le_antisymm hi (by simpa using hfe)
      rw [scan]
      exact ⟨le_refl _, hi, Or.inr hie,
        fun m h1 h2 => absurd (lt_of_le_of_lt h1 h2) (lt_irrefl _)⟩
  | succ fuel ih =>
      intro i hfe hi
      rw [scan]
      by_cases hc : x > getq xp i ∧ i < xp.length - 1
      · rw [if_pos hc]
        obtain ⟨ha, hb, hcdisj, hall⟩ := ih (i + 1) (by omega) hc.2
        refine ⟨le_trans (Nat.le_succ i) ha, hb, hcdisj, ?_⟩
        intro m hm1 hm2
        rcases Nat.eq_or_lt_of_le hm1 with rfl | hlt
        · exact hc.1
        · exact hall m hlt hm2
      · rw [if_neg hc]
        refine ⟨le_refl _, hi, ?_,
          fun m h1 h2 => absurd (lt_of_le_of_lt h1 h2) (lt_irrefl _)⟩
        rcases not_and_or.mp hc with h | h
        · exact Or.inl (le_of_not_lt h)
        · exact Or.inr (le_antisymm hi (le_of_not_lt h))

/-- Claim C8 (amended): `Pwl._interp_`, which keeps no cursor and rescans
from index 1 on every call, returns the exact piecewise-linear
interpolation of its stored points for every query inside the breakpoint
range — in particular for arbitrary (also non-monotonic) query sequences,
since it is a pure function of the query.  (`Table._interp_`, whose cursor
persists, does not have this property — see the counterexample.) -/
theorem Pwl_interp_exact :
    ∀ (xp yp : List ℚ) (x : ℚ) (j : Nat),
      xp.Pairwise (· < ·) → yp.length = xp.length →
      j + 1 < xp.length → getq xp j ≤ x → x ≤ getq xp (j + 1) →
      Pwl_interp xp yp x
        = getq yp j + (getq yp (j + 1) - getq yp j) * (x - getq xp j)
            / (getq xp (j + 1) - getq xp j) := by
  intro xp yp x j hpw hlen hj hxl hxr
  have hdj : getq xp j < getq xp (j + 1) := getq_lt_getq xp hpw (Nat.lt_succ_self j) hj
  by_cases h0 : x ≤ getq xp 0
  · rw [Pwl_interp, if_pos h0]
    have hj0 : j = 0 := by
      by_contra hne
      have : getq xp 0 < getq xp j := getq_lt_getq xp hpw (Nat.pos_of_ne_zero hne) (by omega)
      linarith
    subst hj0
    have hx0 : x = getq xp 0 := le_antisymm h0 hxl
    rw [hx0]
    simp
  · push_neg at h0
    by_cases hL : x ≥ xp.getLastD 0
    · rw [Pwl_interp, if_neg (not_le.mpr h0), if_pos hL]
      rw [getLastD_eq_getq] at hL
      have hj1 : j + 1 = xp.length - 1 := by
        by_contra hne
        have hlt : j + 1 < xp.length - 1 := by omega
        have : getq xp (j + 1) < getq xp (xp.length - 1) :=
          getq_lt_getq xp hpw hlt (by omega)
        linarith
      have hxe : x = getq xp (j + 1) := by
        rw [hj1]
        rw [hj1] at hxr
        exact le_antisymm hxr hL
      have hd : getq xp (j + 1) - getq xp j ≠ 0 := ne_of_gt (by linarith)
      rw [getLastD_eq_getq, show yp.length - 1 = j + 1 by omega, hxe,
        mul_div_assoc, div_self hd, mul_one]
      ring
    · push_neg at hL
      rw [Pwl_interp, if_neg (not_le.mpr h0), if_neg (not_le.mpr hL)]
      simp only []
      rw [getLastD_eq_getq] at hL
      have hlen2 : 2 ≤ xp.length := by omega
      obtain ⟨hi1, hi2, hdisj, hall⟩ :=
        scan_result xp x xp.length 1 (by omega) (by omega)
      set i := scan xp x xp.length 1 with hidef
      have hxle : x ≤ getq xp i := by
        rcases hdisj with h | h
        · exact h
        · rw [h]; exact le_of_lt hL
      have hxgt : getq xp (i - 1) < x := by
        rcases Nat.eq_or_lt_of_le hi1 with h | h
        · rw [← h]; simpa using h0
        · exact hall (i - 1) (by omega) (by omega)
      by_cases hcase : getq xp j < x
      · have hieq : i = j + 1 := by
          have hle1 : j + 1 ≤ i := by
            by_contra hlt
            have hij : i ≤ j := by omega
            have : getq xp i ≤ getq xp j := getq_le_getq xp hpw hij (by omega)
            linarith
          have hle2 : i ≤ j + 1 := by
            by_contra hlt
            have hja : j + 1 ≤ i - 1 := by omega
            have : getq xp (j + 1) ≤ getq xp (i - 1) :=
              getq_le_getq xp hpw hja (by omega)
            linarith
          omega
        rw [hieq]
        simp
      · push_neg at hcase
        have hxe : x = getq xp j := le_antisymm hcase hxl
        have hjpos : j ≠ 0 := by
          intro h
          rw [h] at hxe
          linarith
        have hieq : i = j := by
          have hle1 : i ≤ j := by
            by_contra hlt
            have hja : j ≤ i - 1 := by omega
            have : getq xp j ≤ getq xp (i - 1) :=
              getq_le_getq xp hpw hja (by omega)
            linarith
          have hle2 : j ≤ i := by
            by_contra hlt
            have hij : i < j := by omega
            have : getq xp i < getq xp j := getq_lt_getq xp hpw hij (by omega)
            linarith
          omega
        have hd1 : getq xp j - getq xp (j - 1) ≠ 0 := by
          have : getq xp (j - 1) < getq xp j :=
            getq_lt_getq xp hpw (by omega) (by omega)
          exact ne_of_gt (by linarith)
        have hd2 : getq xp (j + 1) - getq xp j ≠ 0 := ne_of_gt (by linarith)
        rw [hieq, hxe, mul_div_assoc, div_self hd1, mul_one, sub_self, mul_zero,
          zero_div, add_zero]
        ring

/-- Witness for the amended C8: the query `1` on breakpoints
`(0, 0), (2, 10), (4, 0)` lies in the first segment and interpolates
exactly. -/
theorem Pwl_interp_exact_witness :
    (([0, 2, 4] : List ℚ).Pairwise (· < ·)
      ∧ ([0, 10, 0] : List ℚ).length = ([0, 2, 4] : List ℚ).length
      ∧ 0 + 1 < ([0, 2, 4] : List ℚ).length
      ∧ getq [0, 2, 4] 0 ≤ 1 ∧ (1 : ℚ) ≤ getq [0, 2, 4] (0 + 1))
    ∧ Pwl_interp [0, 2, 4] [0, 10, 0] 1
        = getq [0, 10, 0] 0 + (getq [0, 10, 0] (0 + 1) - getq [0, 10, 0] 0)
            * (1 - getq [0, 2, 4] 0) / (getq [0, 2, 4] (0 + 1) - getq [0, 2, 4] 0) := by
  have h1 : ([0, 2, 4] : List ℚ).Pairwise (· < ·) := by decide
  have h2 : ([0, 10, 0] : List ℚ).length = ([0, 2, 4] : List ℚ).length := rfl
  have h3 : 0 + 1 < ([0, 2, 4] : List ℚ).length := by decide
  have h4 : getq [0, 2, 4] 0 ≤ (1 : ℚ) := by decide
  have h5 : (1 : ℚ) ≤ getq [0, 2, 4] (0 + 1) := by decide
  exact ⟨⟨h1, h2, h3, h4, h5⟩, Pwl_interp_exact [0, 2, 4] [0, 10, 0] 1 0 h1 h2 h3 h4 h5⟩

/-- The table of the counterexample: breakpoints `(0,0), (1,10), (2,0)`,
cursor initially `0`. -/
def tbC8 : Table := { xp := [0, 1, 2], yp := [0, 10, 0], cursor := 0 }

/-- Counterexample to C8 as stated: after querying `3/2` (which advances
the persistent cursor to the last segment), querying the smaller value
`1/2` returns `15`, while the exact piecewise-linear interpolation at
`1/2` — also computed by the cursorless `Pwl._interp_` on the same
points — is `5`: `Table.output` is wrong on non-monotonic query
sequences. -/
theorem Table_interp_cursor_wrong :
    (Table_interp (Table_interp tbC8 (3 / 2)).1 (1 / 2)).2 = 15
    ∧ Pwl_interp [0, 1, 2] [0, 10, 0] (1 / 2) = 5
    ∧ (15 : ℚ) ≠ 5 := by
  refine ⟨?_, ?_, by norm_num⟩
  · norm_num [Table_interp, scan, getq, tbC8]
  · norm_num [Pwl_interp, scan, getq]

end SubCircuit
